import Mathlib

/-!
Verification development for the Ai-Era repository: a financial-filing
analysis system with a Next.js web client (`apps/web`) and a FastAPI
analysis backend (`apps/finacial`).  JavaScript strings are modelled as
`List Char`; JavaScript objects are modelled as Lean structures with
`Option` fields for properties that may be `undefined`.
-/

namespace AiEra

/-- JavaScript strings, modelled as lists of characters. -/
abbrev JSStr := List Char

/-- Characters removed by `String.prototype.trim` (the common ASCII ones). -/
def jsWhitespace (c : Char) : Bool :=
  c = ' ' || c = '\t' || c = '\n' || c = '\r' || c = '\x0b' || c = '\x0c'

/-- Model of `s.trim()`: drop whitespace from both ends. -/
def jsTrim (s : JSStr) : JSStr :=
  (((s.dropWhile jsWhitespace).reverse.dropWhile jsWhitespace)).reverse

/-- Model of `s.toLowerCase()`. -/
def jsToLower (s : JSStr) : JSStr := s.map Char.toLower

/-- Model of `s.includes(sub)`. -/
def jsIncludes (s sub : JSStr) : Bool := decide (sub <:+: s)

/-- One company record from the backend stock list (`data.stockList` items),
as used by `hook.js` and `Sender.jsx`.  Fields that may be `undefined` in
JavaScript are modelled as the empty string where the code defaults them
with `|| ''`, and `orgId` is the exchange organisation id. -/
structure Company where
  code : JSStr
  zwjc : JSStr
  pinyin : JSStr
  orgId : JSStr
  deriving DecidableEq, Repr

/-- A `{value, label}` option produced for the antd `Select`. -/
structure SelectOption where
  value : JSStr
  label : JSStr
  deriving DecidableEq, Repr

/-- Embedding of `filterCompanyInfo` from `apps/web/app/hook.js`
(`useCompanyInfo`): empty key returns the first 10 companies projected to
`{value, label}`; otherwise the key is lowercased and trimmed, and if still
non-empty the companies whose `pinyin`, `zwjc` or `code` (lowercased,
defaulting to the empty string) contain it are kept, truncated to 10 and
projected. -/
def filterCompanyInfo (originalCompanyInfo : List Company) (searchKey : JSStr) :
    List SelectOption :=
  if searchKey = [] then
    (originalCompanyInfo.take 10).map (fun item => ⟨item.code, item.zwjc⟩)
  else
    let lowerKey := jsTrim (jsToLower searchKey)
    if lowerKey = [] then
      (originalCompanyInfo.take 10).map (fun item => ⟨item.code, item.zwjc⟩)
    else
      (((originalCompanyInfo.filter (fun item =>
          jsIncludes (jsToLower item.pinyin) lowerKey ||
          jsIncludes (jsToLower item.zwjc) lowerKey ||
          jsIncludes (jsToLower item.code) lowerKey)).take 10).map
        (fun item => ⟨item.code, item.zwjc⟩))

/-- Embedding of `EXCHANGE_CODE_MAP` from `apps/web/app/constant.js` as an
association list from string keys to exchange codes (JavaScript object keys
are strings, so the numeric keys appear here in decimal notation). -/
def EXCHANGE_CODE_MAP : List (JSStr × JSStr) :=
  [("gfbj".toList, "BJ".toList), ("gssz".toList, "SZ".toList), ("gssh".toList, "SH".toList),
   ("600".toList, "SH".toList), ("601".toList, "SH".toList), ("603".toList, "SH".toList),
   ("688".toList, "SH".toList), ("900".toList, "SH".toList),
   ("000".toList, "SZ".toList), ("002".toList, "SZ".toList), ("300".toList, "SZ".toList),
   ("301".toList, "SZ".toList), ("200".toList, "SZ".toList),
   ("920".toList, "BJ".toList), ("83".toList, "BJ".toList), ("87".toList, "BJ".toList),
   ("43".toList, "BJ".toList), ("804".toList, "BJ".toList)]

/-- Property access `EXCHANGE_CODE_MAP[k]`: `some v` when present,
`none` for `undefined`. -/
def mapGet (m : List (JSStr × JSStr)) (k : JSStr) : Option JSStr :=
  (m.find? (fun e => e.1 == k)).map (fun e => e.2)

/-- The JSON body the web client builds for `POST /analyze`
(`Sender.jsx` `handleSubmit`).  `Option` fields model properties that can be
`undefined` and hence absent after `JSON.stringify`.  The spread `...query`
copies further company fields; only the analytically relevant ones are
modelled. -/
structure AnalyzeBody where
  exchange_code : Option JSStr
  stock_code : JSStr
  fiscal_year : Int
  company_name : Option JSStr
  period_type : Option Int
  deriving DecidableEq, Repr

/-- Embedding of the request-body construction in `Sender.jsx`
`handleSubmit` (lines 219–226): `exchange_code` is
`EXCHANGE_CODE_MAP[query.orgId.slice(0,4)] || EXCHANGE_CODE_MAP[query.code.slice(0,3)] || EXCHANGE_CODE_MAP[query.code.slice(0,2)]`,
`stock_code` is `query.code`, `fiscal_year` is the current year,
`company_name` is `query.zwjc`, and the `period_type` line is commented out
in the source, so the field is never set. -/
def buildQuery (query : Company) (currentYear : Int) : AnalyzeBody :=
  { exchange_code :=
      (mapGet EXCHANGE_CODE_MAP (query.orgId.take 4)) <|>
      (mapGet EXCHANGE_CODE_MAP (query.code.take 3)) <|>
      (mapGet EXCHANGE_CODE_MAP (query.code.take 2)),
    stock_code := query.code,
    fiscal_year := currentYear,
    company_name := some query.zwjc,
    period_type := none }

/-- One entry of the slot configuration returned by
`senderRef.current.getValue().slotConfig`. -/
structure Slot where
  key : JSStr
  value : Option JSStr
  deriving DecidableEq, Repr

/-- JavaScript runtime exceptions thrown by `Sender.jsx` `handleSubmit`. -/
inductive JsError where
  /-- `TypeError`: reading a property of `undefined`
  (`query.orgId` when the company lookup fails). -/
  | typeError
  /-- `ReferenceError`: `value` is not defined (the `else` branch reads
  `value.value`, but no `value` is in scope). -/
  | referenceError
  deriving DecidableEq, Repr

/-- Embedding of `handleSubmit` in `apps/web/app/component/Sender.jsx`
(lines 206–238).  When an `onSubmit` callback is installed: with a slot
configuration, the selected company code (`?.value || ''`) is looked up in
`originalCompanyInfo`; a missing company makes `query` `undefined`, so
`query.orgId` throws a `TypeError`.  Without a slot configuration the code
reads `value.value` where `value` is not in scope, throwing a
`ReferenceError`.  Otherwise the built body is handed to the callback.
Returns the body passed to `onSubmitProp`, or the thrown error. -/
def senderHandleSubmit (hasCallback : Bool) (resSlotConfig : Option (List Slot))
    (originalCompanyInfo : List Company) (currentYear : Int) :
    Except JsError (Option AnalyzeBody) :=
  if hasCallback then
    match resSlotConfig with
    | some slots =>
      let selectedCompany :=
        (((slots.find? (fun s => s.key == "company-select".toList)).bind
          (fun s => s.value)).getD [])
      match originalCompanyInfo.find? (fun item => item.code == selectedCompany) with
      | some query => Except.ok (some (buildQuery query currentYear))
      | none => Except.error JsError.typeError
    | none => Except.error JsError.referenceError
  else Except.ok none

/-- Example company used as a concrete witness input: a Shanghai main-board
listing (code prefix `601`, org id prefix `gssh`). -/
def exampleSHCompany : Company :=
  { code := "601127".toList, zwjc := "赛力斯".toList,
    pinyin := "slss".toList, orgId := "gssh0000001".toList }

/-- Example company whose `orgId` and code prefixes occur in no entry of
`EXCHANGE_CODE_MAP`, so every lookup yields `undefined`. -/
def exampleUnknownCompany : Company :=
  { code := "123456".toList, zwjc := "未知公司".toList,
    pinyin := "wzgs".toList, orgId := "xxxx0000001".toList }

/-! ### `apps/finacial/scripts/clean.js` -/

/-- A file-system tree: named files and named directories with children. -/
inductive FSTree where
  | file (name : String)
  | dir (name : String) (children : List FSTree)

/-- The directory names deleted by the clean script (`dirsToClean`). -/
def dirsToClean : List String := ["__pycache__", ".pytest_cache", ".mypy_cache"]

/-- The descent condition of `findAndClean`:
`!item.startsWith('.') && item !== 'node_modules' && item !== '.venv'`. -/
def canDescend (name : String) : Bool :=
  !(name.startsWith ".") && name != "node_modules" && name != ".venv"

/-- Embedding of `findAndClean` from `apps/finacial/scripts/clean.js`
(lines 29–60), as the transformation it performs on a directory's entries:
a directory whose name is in `dirsToClean` is removed entirely
(`deleteFolderRecursive`), an ordinary directory passing the descent check
is cleaned recursively, any other directory and every file are left as
they are.  The JavaScript function returns a deletion counter and mutates
the file system; the model returns the resulting entry list. -/
def findAndClean : List FSTree → List FSTree
  | [] => []
  | FSTree.file n :: rest => FSTree.file n :: findAndClean rest
  | FSTree.dir n cs :: rest =>
    if dirsToClean.contains n then findAndClean rest
    else if canDescend n then FSTree.dir n (findAndClean cs) :: findAndClean rest
    else FSTree.dir n cs :: findAndClean rest

/-- Whether a file exists at the given path (directory names followed by the
file name) under the given entry list. -/
def fileAt : List FSTree → List String → Bool
  | _, [] => false
  | items, [n] =>
    items.any (fun t => match t with
      | FSTree.file m => m = n
      | FSTree.dir _ _ => false)
  | items, n :: p =>
    items.any (fun t => match t with
      | FSTree.dir m cs => m = n && fileAt cs p
      | FSTree.file _ => false)

/-! ### `apps/web/app/page.js` — the streaming `handleSubmit` loop -/

/-- Model of `buffer.split('\n\n')` followed by `buffer = messages.pop()`:
the first component is the list of complete messages (everything before the
final fragment), the second the retained trailing fragment.  JavaScript
`split` scans left to right, consuming non-overlapping separators
greedily. -/
def splitNN : List Char → List (List Char) × List Char
  | [] => ([], [])
  | '\n' :: '\n' :: rest =>
    let r := splitNN rest
    ([] :: r.1, r.2)
  | c :: rest =>
    match splitNN rest with
    | ([], l) => ([], c :: l)
    | (p :: ps, l) => ((c :: p) :: ps, l)

/-- The characters of the frame prefix `'data: '`. -/
def dataPrefix : List Char := ['d', 'a', 't', 'a', ':', ' ']

/-- Model of the per-message handling in `handleSubmit` (page.js lines
62–66): `const line = message.trim()`, then if `line.startsWith('data: ')`
the JSON text `line.slice(6)` is parsed; otherwise the message is ignored.
The result is the JSON text handed to `JSON.parse`. -/
def processMsg (m : List Char) : Option (List Char) :=
  let line := jsTrim m
  if dataPrefix.isPrefixOf line then some (line.drop 6) else none

/-- Model of the chunk loop of `handleSubmit` (page.js lines 49–89): each
decoded chunk is appended to the buffer, the buffer is split on `'\n\n'`,
the final (possibly incomplete) fragment becomes the new buffer, and every
complete message is processed with `processMsg`.  Returns the JSON texts
recovered, in order. -/
def runChunks : List Char → List (List Char) → List (List Char)
  | _, [] => []
  | buffer, chunk :: chunks =>
    let r := splitNN (buffer ++ chunk)
    r.1.filterMap processMsg ++ runChunks r.2 chunks

/-- Server-side framing of one outbound frame: the JSON text prefixed with
`'data: '` and terminated by a blank line (spec §6). -/
def encodeFrame (j : List Char) : List Char := dataPrefix ++ j ++ ['\n', '\n']

/-- The full outbound stream for a list of frames. -/
def encodeStream (js : List (List Char)) : List Char := (js.map encodeFrame).flatten

/-- A well-formed single-line frame payload: no newline inside the JSON
text (one JSON object per frame, on one line) and a non-whitespace final
character (a serialized JSON object ends in `\x7d`, a quote, or a digit). -/
def goodFrameJson (j : List Char) : Bool :=
  !(j.contains '\n') &&
  (match j.reverse with
   | [] => false
   | c :: _ => !jsWhitespace c)

/-- The parsed JSON object of one frame, as accessed by `handleSubmit`:
only `status`, `message` and `data` are read; absent properties are
`none`. -/
structure SseJson where
  status : Option JSStr
  message : Option JSStr
  data : Option JSStr
  deriving DecidableEq, Repr

/-- JavaScript template-literal interpolation `a ++ x ++ b` of a value that
may be `undefined`. -/
def jsInterp (o : Option JSStr) : JSStr := o.getD "undefined".toList

/-- Truthiness of a string property that may be `undefined`. -/
def jsTruthy (o : Option JSStr) : Bool := !(o.getD []).isEmpty

/-- Embedding of the frame dispatch in `handleSubmit` (page.js lines
69–76): the text appended to `fullText` for one parsed frame.  A
`progress` frame appends a quote block, an `analyzing` frame with truthy
`data` appends `data.data` verbatim, a `complete` frame appends nothing
(the append is commented out), and every other status — including
`error` — matches no branch and appends nothing. -/
def renderFrame (d : SseJson) : JSStr :=
  if d.status == some "progress".toList then
    "> 🔄 ".toList ++ jsInterp d.message ++ ['\n', '\n']
  else if d.status == some "analyzing".toList && jsTruthy d.data then
    d.data.getD []
  else []

/-- The accumulated `fullText` after handling a sequence of parsed frames
in arrival order. -/
def processFrames (fullText : JSStr) (frames : List SseJson) : JSStr :=
  frames.foldl (fun acc d => acc ++ renderFrame d) fullText

/-- A terminal error frame as serialized by the backend
(status `error` with a message), after `JSON.parse`. -/
def errorFrameJson : SseJson :=
  { status := some "error".toList, message := some "下载失败".toList, data := none }

/-! ### Backend orchestration core (`apps/finacial`), modelled from the spec

The FastAPI backend (`main.py`, `index.py`, the `crawler_website`,
`download_pdf` and `db` modules) is described by the repository README and
the spec but its code is not part of the checked sources, so the Filing
Cache, the Crawl/Download Coordinator and the Session State Machine are
modelled from the spec (§3, §4.1–§4.3, §5, §8). -/

/-- Exchange codes of the inbound request (spec §6). -/
inductive ExchangeCode where
  | SH
  | SZ
  | BJ
  deriving DecidableEq, Repr

/-- Period types `1..4` (quarterly, half-year, third-quarter, annual). -/
inductive PeriodType where
  | q1
  | h1
  | q3
  | annual
  deriving DecidableEq, Repr

/-- Modelled from the spec: the FilingFingerprint of §3, the canonical key
(exchange, stock code, fiscal year, period type) of a filing request. -/
structure FilingFingerprint where
  exchange_code : ExchangeCode
  stock_code : JSStr
  fiscal_year : Int
  period_type : PeriodType
  deriving DecidableEq, Repr

/-- Modelled from the spec: a CachedFiling record of §3 — local artifact
path, retrieval timestamp and source metadata. -/
structure CachedFiling where
  artifact_path : JSStr
  retrieved_at : Int
  source_meta : JSStr
  deriving DecidableEq, Repr

/-- Modelled from the spec: the Filing Cache of §4.1, a persistent
fingerprint-keyed store (the backend `db` module is not in the checked
sources). -/
abbrev FilingCache := List (FilingFingerprint × CachedFiling)

/-- Modelled from the spec: `lookup(fingerprint) -> CachedFiling | miss`
(§4.1). -/
def cacheLookup (c : FilingCache) (f : FilingFingerprint) : Option CachedFiling :=
  (c.find? (fun e => decide (e.1 = f))).map (fun e => e.2)

/-- Modelled from the spec: `store(fingerprint, CachedFiling)` with atomic
replace semantics (§4.1) — the new record replaces any record held under
the same fingerprint in one step. -/
def cacheStore (c : FilingCache) (f : FilingFingerprint) (r : CachedFiling) : FilingCache :=
  (f, r) :: c.filter (fun e => !(decide (e.1 = f)))

/-- A sequence of store operations applied in order. -/
def applyStores (c : FilingCache) (ops : List (FilingFingerprint × CachedFiling)) : FilingCache :=
  ops.foldl (fun acc e => cacheStore acc e.1 e.2) c

/-- Modelled from the spec: the Crawl/Download Coordinator state of §4.2 —
the FetchTask registry (fingerprint with its waiting sessions) together
with call counters on the Crawler and Downloader test doubles (§8). -/
structure Coordinator where
  tasks : List (FilingFingerprint × List Nat)
  crawls : Nat
  downloads : Nat
  deriving DecidableEq, Repr

/-- Whether an active FetchTask exists for the fingerprint. -/
def hasTask (st : Coordinator) (f : FilingFingerprint) : Bool :=
  st.tasks.any (fun e => decide (e.1 = f))

/-- Number of active FetchTasks registered for the fingerprint. -/
def taskCount (st : Coordinator) (f : FilingFingerprint) : Nat :=
  st.tasks.countP (fun e => decide (e.1 = f))

/-- The sessions waiting on the fingerprint's FetchTask. -/
def waiters (st : Coordinator) (f : FilingFingerprint) : List Nat :=
  ((st.tasks.find? (fun e => decide (e.1 = f))).map (fun e => e.2)).getD []

/-- Modelled from the spec: step 2 of §4.2 — atomically create-or-join a
FetchTask.  If a task for the fingerprint is already in flight the session
attaches as a waiter; otherwise a new task is created and exactly one
crawl and one download attempt sequence are started (the counters
increment). -/
def request (st : Coordinator) (f : FilingFingerprint) (s : Nat) : Coordinator :=
  if hasTask st f then
    { st with tasks := st.tasks.map (fun e => if decide (e.1 = f) then (e.1, s :: e.2) else e) }
  else
    { tasks := (f, [s]) :: st.tasks, crawls := st.crawls + 1, downloads := st.downloads + 1 }

/-- A burst of concurrent requests for the same fingerprint, arriving in
some serialization order while the fetch cycle is in flight. -/
def requestAll (st : Coordinator) (f : FilingFingerprint) (ss : List Nat) : Coordinator :=
  ss.foldl (fun acc s => request acc f s) st

/-- Modelled from the spec: the fetch retry bound of §8 (`retry bound = 3`). -/
def retryBound : Nat := 3

/-- Modelled from the spec: the bounded retry loop of §4.2 step 4.
`results i` is the Downloader test double's outcome of attempt `i`; the
fuel is the number of attempts still allowed.  Returns whether the fetch
succeeded and how many download attempts were made. -/
def downloadWithRetry (results : Nat → Bool) : Nat → Nat → Bool × Nat
  | _, 0 => (false, 0)
  | attempt, fuel + 1 =>
    if results attempt then (true, 1)
    else
      let r := downloadWithRetry results (attempt + 1) fuel
      (r.1, r.2 + 1)

/-- Session states of the spec's Session State Machine (§4.3). -/
inductive SessionState where
  | Queued
  | Resolving
  | Fetching
  | Analyzing
  | Complete
  | Failed
  deriving DecidableEq, Repr

/-- Session events (§3 and the wire vocabulary of §6). -/
inductive SpecEvent where
  | progress (step message : JSStr)
  | analyzing (data : JSStr)
  | complete (message : JSStr)
  | error (message : JSStr)
  deriving DecidableEq, Repr

/-- Whether an event is an `analyzing` frame. -/
def isAnalyzing : SpecEvent → Bool
  | SpecEvent.analyzing _ => true
  | _ => false

/-- Whether an event is a terminal `error` frame. -/
def isErrorEvent : SpecEvent → Bool
  | SpecEvent.error _ => true
  | _ => false

/-- Modelled from the spec: the Session State Machine of §4.3 on a cache
miss/hit, with the Downloader double `results` and the Agent's analysis
chunks.  On a hit or fetch success the session streams `analyzing` events
and one terminal `complete`; on retry exhaustion it transitions to
`Failed` and emits one terminal `error`, with no `analyzing` events. -/
def runSession (cacheHit : Bool) (results : Nat → Bool) (analysisOutput : List JSStr) :
    List SpecEvent × SessionState :=
  if cacheHit then
    (analysisOutput.map SpecEvent.analyzing ++ [SpecEvent.complete "分析完成".toList],
     SessionState.Complete)
  else
    let fetch := downloadWithRetry results 0 (retryBound + 1)
    if fetch.1 then
      ([SpecEvent.progress "query".toList "正在查询数据库...".toList,
        SpecEvent.progress "download".toList "正在下载 PDF...".toList] ++
        analysisOutput.map SpecEvent.analyzing ++
        [SpecEvent.complete "分析完成".toList],
       SessionState.Complete)
    else
      ([SpecEvent.progress "query".toList "正在查询数据库...".toList,
        SpecEvent.error "下载失败".toList],
       SessionState.Failed)

/-- Concrete fingerprint used by witnesses: the spec §8 scenario request
`(SH, 601127, 2024, Q3)`. -/
def exampleFingerprint : FilingFingerprint :=
  { exchange_code := ExchangeCode.SH, stock_code := "601127".toList,
    fiscal_year := 2024, period_type := PeriodType.q3 }

/-- A second, distinct fingerprint (different stock code). -/
def otherFingerprint : FilingFingerprint :=
  { exchange_code := ExchangeCode.SZ, stock_code := "000001".toList,
    fiscal_year := 2024, period_type := PeriodType.annual }

/-- Concrete cached filing record used by witnesses. -/
def exampleFiling : CachedFiling :=
  { artifact_path := "pdf/601127-2024-q3.pdf".toList, retrieved_at := 1736400000,
    source_meta := "sse".toList }

/-- A different record, stored under `otherFingerprint` by witnesses. -/
def otherFiling : CachedFiling :=
  { artifact_path := "pdf/000001-2024-annual.pdf".toList, retrieved_at := 1736400001,
    source_meta := "szse".toList }

/-- Concrete directory tree used by the clean-script witness. -/
def exampleTree : List FSTree :=
  [FSTree.dir "src"
    [FSTree.file "a.py",
     FSTree.dir "__pycache__" [FSTree.file "a.pyc"]],
   FSTree.dir "node_modules" [FSTree.file "x.js"],
   FSTree.file "README.md"]

/-! ## Theorems -/

theorem take_map_length_le (cs : List Company) (f : Company → SelectOption) (n : Nat) :
    ((cs.take n).map f).length ≤ n := by
  simp only [List.length_map, List.length_take]
  omega

/-- Claim C9: for every company list and search key, `filterCompanyInfo`
returns at most 10 entries, each the `{value: item.code, label: item.zwjc}`
projection of a listed company; when the lowercased-and-trimmed key is
non-empty every returned entry comes from a company whose `pinyin`, `zwjc`
or `code` contains the key case-insensitively, and when it is empty (empty
or all-whitespace key) the first 10 companies are returned unfiltered. -/
theorem filterCompanyInfo_eq_take (cs : List Company) (key : JSStr)
    (h : jsTrim (jsToLower key) = []) :
    filterCompanyInfo cs key = (cs.take 10).map (fun item => ⟨item.code, item.zwjc⟩) := by
  by_cases hkey : key = []
  · subst hkey
    simp [filterCompanyInfo]
  · simp [filterCompanyInfo, hkey, h]

theorem filterCompanyInfo_eq_filter (cs : List Company) (key : JSStr)
    (h : jsTrim (jsToLower key) ≠ []) :
    filterCompanyInfo cs key =
      ((cs.filter (fun item =>
          jsIncludes (jsToLower item.pinyin) (jsTrim (jsToLower key)) ||
          jsIncludes (jsToLower item.zwjc) (jsTrim (jsToLower key)) ||
          jsIncludes (jsToLower item.code) (jsTrim (jsToLower key)))).take 10).map
        (fun item => ⟨item.code, item.zwjc⟩) := by
  have hkey : key ≠ [] := by
    intro hk
    subst hk
    exact h rfl
  simp [filterCompanyInfo, hkey, h]

theorem claim_C9_filterCompanyInfo_spec (cs : List Company) (key : JSStr) :
    (filterCompanyInfo cs key).length ≤ 10 ∧
    (∀ o ∈ filterCompanyInfo cs key, ∃ item ∈ cs, o = ⟨item.code, item.zwjc⟩) ∧
    (jsTrim (jsToLower key) ≠ [] →
      ∀ o ∈ filterCompanyInfo cs key, ∃ item ∈ cs,
        o = ⟨item.code, item.zwjc⟩ ∧
        (jsIncludes (jsToLower item.pinyin) (jsTrim (jsToLower key)) ||
         jsIncludes (jsToLower item.zwjc) (jsTrim (jsToLower key)) ||
         jsIncludes (jsToLower item.code) (jsTrim (jsToLower key))) = true) ∧
    (jsTrim (jsToLower key) = [] →
      filterCompanyInfo cs key = (cs.take 10).map (fun item => ⟨item.code, item.zwjc⟩)) := by
  by_cases hlow : jsTrim (jsToLower key) = []
  · rw [filterCompanyInfo_eq_take cs key hlow]
    refine ⟨take_map_length_le cs _ 10, ?_, ?_, fun _ => rfl⟩
    · intro o ho
      simp only [List.mem_map] at ho
      obtain ⟨item, hitem, rfl⟩ := ho
      exact ⟨item, List.take_subset _ _ hitem, rfl⟩
    · intro habs
      exact absurd hlow habs
  · rw [filterCompanyInfo_eq_filter cs key hlow]
    refine ⟨take_map_length_le _ _ 10, ?_, ?_, fun habs => absurd habs hlow⟩
    · intro o ho
      simp only [List.mem_map] at ho
      obtain ⟨item, hitem, rfl⟩ := ho
      exact ⟨item, (List.mem_filter.mp (List.take_subset _ _ hitem)).1, rfl⟩
    · intro _ o ho
      simp only [List.mem_map] at ho
      obtain ⟨item, hitem, rfl⟩ := ho
      have hmem := List.mem_filter.mp (List.take_subset _ _ hitem)
      exact ⟨item, hmem.1, rfl, hmem.2⟩

/-- Claim C9 witness: concrete runs of `filterCompanyInfo` discharging both
hypotheses of the specification theorem. -/
theorem claim_C9_witness :
    (filterCompanyInfo [exampleSHCompany] "SLS".toList).length ≤ 10 ∧
    filterCompanyInfo [exampleSHCompany] "   ".toList
      = ([exampleSHCompany].take 10).map (fun item => ⟨item.code, item.zwjc⟩) :=
  ⟨(claim_C9_filterCompanyInfo_spec [exampleSHCompany] "SLS".toList).1,
   (claim_C9_filterCompanyInfo_spec [exampleSHCompany] "   ".toList).2.2.2 (by decide)⟩

theorem mapGet_mem_values (m : List (JSStr × JSStr)) (k v : JSStr)
    (h : mapGet m k = some v) : ∃ e ∈ m, e.2 = v := by
  unfold mapGet at h
  cases hf : m.find? (fun e => e.1 == k) with
  | none =>
    rw [hf] at h
    exact absurd h (by simp)
  | some e =>
    rw [hf] at h
    exact ⟨e, List.mem_of_find?_eq_some hf, Option.some_injective _ h⟩

/-- Claim C2 counterexample: the body built by the client never contains a
`period_type` property (the assignment is commented out in `Sender.jsx`),
and for a company whose `orgId` and code prefixes match no entry of
`EXCHANGE_CODE_MAP` the `exchange_code` property is `undefined`, hence
absent after `JSON.stringify` — contradicting the claim that every built
body carries `period_type ∈ {1,2,3,4}` and `exchange_code ∈ {SH,SZ,BJ}`. -/
theorem claim_C2_counterexample :
    (buildQuery exampleSHCompany 2026).period_type = none ∧
    (buildQuery exampleUnknownCompany 2026).exchange_code = none := by
  constructor
  · rfl
  · decide

/-- Claim C2 (amended): every request body built by the client's slot path
carries `stock_code = query.code`, an integer `fiscal_year` equal to the
current year, `company_name = query.zwjc`, no `period_type`, and an
`exchange_code` that, when present at all, is one of SH, SZ, BJ. -/
theorem claim_C2_body_shape (query : Company) (year : Int) :
    (buildQuery query year).stock_code = query.code ∧
    (buildQuery query year).fiscal_year = year ∧
    (buildQuery query year).company_name = some query.zwjc ∧
    (buildQuery query year).period_type = none ∧
    ∀ v, (buildQuery query year).exchange_code = some v →
      v = "SH".toList ∨ v = "SZ".toList ∨ v = "BJ".toList := by
  refine ⟨rfl, rfl, rfl, rfl, ?_⟩
  intro v hv
  have hval : ∀ e ∈ EXCHANGE_CODE_MAP,
      e.2 = "SH".toList ∨ e.2 = "SZ".toList ∨ e.2 = "BJ".toList := by decide
  have hsrc : ∃ e ∈ EXCHANGE_CODE_MAP, e.2 = v := by
    have hv2 : (mapGet EXCHANGE_CODE_MAP (query.orgId.take 4) <|>
        mapGet EXCHANGE_CODE_MAP (query.code.take 3) <|>
        mapGet EXCHANGE_CODE_MAP (query.code.take 2)) = some v := hv
    rw [Option.orElse_eq_some] at hv2
    rcases hv2 with h | ⟨_, h2⟩
    · exact mapGet_mem_values _ _ _ h
    · rw [Option.orElse_eq_some] at h2
      rcases h2 with h | ⟨_, h⟩ <;> exact mapGet_mem_values _ _ _ h
  obtain ⟨e, he, rfl⟩ := hsrc
  exact hval e he

/-- Claim C2 witness: the amended body-shape theorem applied to a concrete
Shanghai-listed company, with the `exchange_code` hypothesis discharged by
evaluation. -/
theorem claim_C2_witness :
    (buildQuery exampleSHCompany 2026).period_type = none ∧
    ("SH".toList = "SH".toList ∨ "SH".toList = "SZ".toList ∨ "SH".toList = "BJ".toList) :=
  ⟨(claim_C2_body_shape exampleSHCompany 2026).2.2.2.1,
   (claim_C2_body_shape exampleSHCompany 2026).2.2.2.2 ("SH".toList) (by decide)⟩

/-- Claim C8 counterexample: `handleSubmit` does throw — a `TypeError` when
the slot path's company lookup fails (`query` is `undefined` and
`query.orgId` is read), and a `ReferenceError` in the no-slot-configuration
branch (it reads `value.value`, but no `value` is in scope). -/
theorem claim_C8_counterexample :
    senderHandleSubmit true (some [⟨"company-select".toList, some "601127".toList⟩]) [] 2026
      = Except.error JsError.typeError ∧
    senderHandleSubmit true none [exampleSHCompany] 2026
      = Except.error JsError.referenceError :=
  ⟨rfl, rfl⟩

/-- Claim C8 (amended): `handleSubmit` completes without throwing exactly
when no `onSubmit` callback is installed, or the sender returned a slot
configuration whose selected company code is found in
`originalCompanyInfo`; in every other submission it throws (`TypeError` on
a failed company lookup, `ReferenceError` when no slot configuration is
returned). -/
theorem claim_C8_completion_characterization (hasCallback : Bool)
    (resSlotConfig : Option (List Slot)) (cs : List Company) (year : Int) :
    (∃ b, senderHandleSubmit hasCallback resSlotConfig cs year = Except.ok b) ↔
      (hasCallback = false ∨
        ∃ slots, resSlotConfig = some slots ∧
          ∃ q, cs.find? (fun item => item.code ==
              ((((slots.find? (fun s => s.key == "company-select".toList)).bind
                (fun s => s.value)).getD []))) = some q) := by
  cases hasCallback with
  | false =>
    simp [senderHandleSubmit]
  | true =>
    cases resSlotConfig with
    | none =>
      simp [senderHandleSubmit]
    | some slots =>
      simp only [senderHandleSubmit, if_pos rfl, Option.some.injEq, Bool.true_eq_false,
        false_or, exists_eq_left']
      generalize (((slots.find? (fun s => s.key == "company-select".toList)).bind
        (fun s => s.value)).getD []) = sel
      cases hf : cs.find? (fun item => item.code == sel) with
      | none =>
        simp [hf]
      | some q =>
        simp [hf]

/-- Claim C3: the frame dispatch in `page.js` has branches only for
`progress`, `analyzing` and `complete`, so a terminal error frame
contributes nothing to the user-visible message — a stream ending in an
error frame is indistinguishable from the same stream without it.  This
contradicts the specified behaviour (an error is never silently dropped),
so the code, not the claim, is at fault. -/
theorem claim_C3_error_frame_dropped :
    processFrames [] [errorFrameJson] = processFrames [] ([] : List SseJson) ∧
    (∀ fullText frames, processFrames fullText (frames ++ [errorFrameJson])
      = processFrames fullText frames) := by
  constructor
  · decide
  · intro fullText frames
    have hrender : renderFrame errorFrameJson = [] := by decide
    simp [processFrames, List.foldl_append, hrender]

/-- Claim C6: the accumulated `fullText` is the initial text followed by
the renderings of the received frames in arrival order (progress frames as
quote blocks, analyzing frames verbatim), and handling any further frames
only appends: after every step the previously accumulated content is a
prefix of the final content, so earlier output is never reordered or
rewritten. -/
theorem claim_C6_append_only_in_order (fullText : JSStr) (frames : List SseJson) :
    processFrames fullText frames = fullText ++ (frames.map renderFrame).flatten ∧
    ∀ i, processFrames fullText (frames.take i) <+: processFrames fullText frames := by
  have hmain : ∀ (fs : List SseJson) (t : JSStr),
      processFrames t fs = t ++ (fs.map renderFrame).flatten := by
    intro fs
    induction fs with
    | nil =>
      intro t
      simp [processFrames]
    | cons d ds ih =>
      intro t
      simp only [processFrames, List.foldl_cons] at ih ⊢
      rw [ih (t ++ renderFrame d)]
      simp [List.append_assoc]
  refine ⟨hmain frames fullText, ?_⟩
  intro i
  rw [hmain frames fullText, hmain (frames.take i) fullText]
  have htake : (frames.take i).map renderFrame <+: frames.map renderFrame := by
    rw [List.map_take]
    exact List.take_prefix i (frames.map renderFrame)
  obtain ⟨t, ht⟩ := htake
  exact ⟨t.flatten, by rw [← ht, List.flatten_append, List.append_assoc]⟩

theorem cacheLookup_store_self (c : FilingCache) (f : FilingFingerprint) (r : CachedFiling) :
    cacheLookup (cacheStore c f r) f = some r := by
  simp [cacheLookup, cacheStore]

theorem find?_filter_other (c : FilingCache) (f g : FilingFingerprint) :
    List.find? (fun e => decide (e.1 = f)) (List.filter (fun e => !decide (e.1 = g)) c)
      = List.find? (fun e => decide (e.1 = f)) c ∨ g = f := by
  by_cases hne : g = f
  · exact Or.inr hne
  · refine Or.inl ?_
    induction c with
    | nil => rfl
    | cons e es ih =>
      have hfg : ¬f = g := fun h => hne h.symm
      by_cases hef : e.1 = f
      · have heg : ¬e.1 = g := fun h => hne (h ▸ hef ▸ rfl)
        simp [List.filter_cons, heg, List.find?_cons, hef, hfg]
      · by_cases heg : e.1 = g
        · simp [List.filter_cons, heg, List.find?_cons, hef, ih, hne]
        · simp [List.filter_cons, heg, List.find?_cons, hef, ih]

theorem cacheLookup_store_other (c : FilingCache) (f g : FilingFingerprint)
    (r : CachedFiling) (hne : g ≠ f) :
    cacheLookup (cacheStore c g r) f = cacheLookup c f := by
  simp only [cacheLookup, cacheStore]
  rw [List.find?_cons_of_neg _ (by simp [hne])]
  rcases find?_filter_other c f g with h | h
  · rw [h]
  · exact absurd h hne

/-- Claim C7: Filing Cache round-trip — after `store(f, r)`, a `lookup(f)`
returns exactly `r`, and any sequence of intervening stores to other
fingerprints does not disturb it (never a miss, never a different
record). -/
theorem claim_C7_cache_roundtrip (c : FilingCache) (f : FilingFingerprint) (r : CachedFiling)
    (ops : List (FilingFingerprint × CachedFiling)) (h : ∀ e ∈ ops, e.1 ≠ f) :
    cacheLookup (applyStores (cacheStore c f r) ops) f = some r := by
  have hgen : ∀ (ops2 : List (FilingFingerprint × CachedFiling)) (st : FilingCache),
      (∀ e ∈ ops2, e.1 ≠ f) → cacheLookup st f = some r →
      cacheLookup (applyStores st ops2) f = some r := by
    intro ops2
    induction ops2 with
    | nil =>
      intro st _ hst
      exact hst
    | cons e es ih =>
      intro st hes hst
      simp only [applyStores, List.foldl_cons] at ih ⊢
      exact ih (cacheStore st e.1 e.2)
        (fun x hx => hes x (List.mem_cons_of_mem e hx))
        (by rw [cacheLookup_store_other st f e.1 e.2 (hes e (List.mem_cons_self e es))]
            exact hst)
  exact hgen ops (cacheStore c f r) h (cacheLookup_store_self c f r)

/-- Claim C7 witness: storing under the scenario fingerprint, then storing
a different record under a different fingerprint, then looking the first
fingerprint up returns the original record. -/
theorem claim_C7_witness :
    cacheLookup (applyStores (cacheStore [] exampleFingerprint exampleFiling)
      [(otherFingerprint, otherFiling)]) exampleFingerprint = some exampleFiling :=
  claim_C7_cache_roundtrip [] exampleFingerprint exampleFiling
    [(otherFingerprint, otherFiling)] (by decide)

theorem attach_pred_eq (f : FilingFingerprint) (s : Nat)
    (e : FilingFingerprint × List Nat) :
    (decide ((if decide (e.1 = f) then (e.1, s :: e.2) else e).1 = f)) = decide (e.1 = f) := by
  by_cases hp : e.1 = f
  · simp [hp]
  · simp [hp]

theorem find?_attach (f : FilingFingerprint) (s : Nat)
    (l : List (FilingFingerprint × List Nat)) :
    (l.map (fun e => if decide (e.1 = f) then (e.1, s :: e.2) else e)).find?
        (fun e => decide (e.1 = f))
      = (l.find? (fun e => decide (e.1 = f))).map
        (fun e => if decide (e.1 = f) then (e.1, s :: e.2) else e) := by
  induction l with
  | nil => rfl
  | cons e es ih =>
    by_cases hp : e.1 = f
    · rw [List.map_cons, List.find?_cons_of_pos _ (by rw [attach_pred_eq]; simp [hp]),
        List.find?_cons_of_pos _ (by simp [hp])]
      simp
    · rw [List.map_cons, List.find?_cons_of_neg _ (by rw [attach_pred_eq]; simp [hp]),
        List.find?_cons_of_neg _ (by simp [hp]), ih]

theorem any_attach (f : FilingFingerprint) (s : Nat)
    (l : List (FilingFingerprint × List Nat)) :
    (l.map (fun e => if decide (e.1 = f) then (e.1, s :: e.2) else e)).any
        (fun e => decide (e.1 = f))
      = l.any (fun e => decide (e.1 = f)) := by
  induction l with
  | nil => rfl
  | cons e es ih =>
    simp only [List.map_cons, List.any_cons, attach_pred_eq, ih]

theorem countP_attach (f : FilingFingerprint) (s : Nat)
    (l : List (FilingFingerprint × List Nat)) :
    (l.map (fun e => if decide (e.1 = f) then (e.1, s :: e.2) else e)).countP
        (fun e => decide (e.1 = f))
      = l.countP (fun e => decide (e.1 = f)) := by
  induction l with
  | nil => rfl
  | cons e es ih =>
    simp only [List.map_cons, List.countP_cons, attach_pred_eq, ih]

theorem request_inflight (st : Coordinator) (f : FilingFingerprint) (s : Nat)
    (h : hasTask st f = true) :
    (request st f s).crawls = st.crawls ∧
    (request st f s).downloads = st.downloads ∧
    hasTask (request st f s) f = true ∧
    taskCount (request st f s) f = taskCount st f ∧
    waiters (request st f s) f = s :: waiters st f := by
  obtain ⟨e, he⟩ : ∃ e, st.tasks.find? (fun e => decide (e.1 = f)) = some e := by
    have hx := List.any_eq_true.mp h
    obtain ⟨x, hx1, hx2⟩ := hx
    exact Option.isSome_iff_exists.mp (List.find?_isSome.mpr ⟨x, hx1, hx2⟩)
  have hpe : e.1 = f := by simpa using List.find?_some he
  have hreq : request st f s =
      { st with tasks := st.tasks.map (fun e =>
          if decide (e.1 = f) then (e.1, s :: e.2) else e) } := by
    simp [request, h]
  rw [hreq]
  refine ⟨rfl, rfl, ?_, ?_, ?_⟩
  · simp only [hasTask]
    rw [any_attach]
    exact h
  · simp only [taskCount]
    exact countP_attach f s st.tasks
  · simp only [waiters]
    rw [find?_attach, he]
    simp [hpe, he]

theorem requestAll_inflight (f : FilingFingerprint) (ss : List Nat) :
    ∀ st : Coordinator, hasTask st f = true →
      (requestAll st f ss).crawls = st.crawls ∧
      (requestAll st f ss).downloads = st.downloads ∧
      hasTask (requestAll st f ss) f = true ∧
      taskCount (requestAll st f ss) f = taskCount st f ∧
      (∀ x, x ∈ waiters st f → x ∈ waiters (requestAll st f ss) f) ∧
      (∀ x ∈ ss, x ∈ waiters (requestAll st f ss) f) := by
  induction ss with
  | nil =>
    intro st h
    exact ⟨rfl, rfl, h, rfl, fun x hx => hx, fun x hx => absurd hx (List.not_mem_nil x)⟩
  | cons s rest ih =>
    intro st h
    have hreq := request_inflight st f s h
    have hstep := ih (request st f s) hreq.2.2.1
    have hfold : requestAll st f (s :: rest) = requestAll (request st f s) f rest := rfl
    rw [hfold]
    refine ⟨hstep.1.trans hreq.1, hstep.2.1.trans hreq.2.1, hstep.2.2.1,
      (hstep.2.2.2.1).trans hreq.2.2.2.1, ?_, ?_⟩
    · intro x hx
      exact hstep.2.2.2.2.1 x (by rw [hreq.2.2.2.2]; exact List.mem_cons_of_mem s hx)
    · intro x hx
      rcases List.mem_cons.mp hx with hx | hx
      · subst hx
        exact hstep.2.2.2.2.1 x (by rw [hreq.2.2.2.2]; exact List.mem_cons_self x _)
      · exact hstep.2.2.2.2.2 x hx

/-- Claim C4: at most one active FetchTask per fingerprint — starting from
a state with no task for `f`, any burst of concurrent requests for `f`
creates exactly one task, performs exactly one crawl and one download
attempt sequence (the counters each rise by exactly one), and every
requesting session is attached to that single task as a waiter. -/
theorem claim_C4_fetch_dedup (st : Coordinator) (f : FilingFingerprint) (s : Nat)
    (ss : List Nat) (h : hasTask st f = false) :
    (requestAll st f (s :: ss)).crawls = st.crawls + 1 ∧
    (requestAll st f (s :: ss)).downloads = st.downloads + 1 ∧
    taskCount (requestAll st f (s :: ss)) f = 1 ∧
    ∀ x ∈ s :: ss, x ∈ waiters (requestAll st f (s :: ss)) f := by
  have hfirst : request st f s =
      ⟨(f, [s]) :: st.tasks, st.crawls + 1, st.downloads + 1⟩ := by
    simp [request, h]
  have h1 : hasTask (request st f s) f = true := by
    rw [hfirst]
    simp [hasTask]
  have hforall : ∀ x ∈ st.tasks, ¬((fun e => decide (e.1 = f)) x = true) :=
    List.any_eq_false.mp h
  have hcount0 : st.tasks.countP (fun e => decide (e.1 = f)) = 0 := by
    rw [List.countP_eq_zero]
    intro a ha
    simpa using hforall a ha
  have hall := requestAll_inflight f ss (request st f s) h1
  have hfold : requestAll st f (s :: ss) = requestAll (request st f s) f ss := rfl
  rw [hfold]
  refine ⟨?_, ?_, ?_, ?_⟩
  · rw [hall.1, hfirst]
  · rw [hall.2.1, hfirst]
  · rw [hall.2.2.2.1, hfirst]
    simp [taskCount, List.countP_cons, hcount0]
  · intro x hx
    rcases List.mem_cons.mp hx with hx | hx
    · subst hx
      refine hall.2.2.2.2.1 x ?_
      rw [hfirst]
      simp [waiters, List.find?_cons]
    · exact hall.2.2.2.2.2 x hx

/-- Claim C4 witness: three concurrent requests for the scenario
fingerprint against an idle coordinator — one crawl, one download, one
task, all three sessions attached. -/
theorem claim_C4_witness :
    (requestAll ⟨[], 0, 0⟩ exampleFingerprint [1, 2, 3]).crawls = 0 + 1 ∧
    (requestAll ⟨[], 0, 0⟩ exampleFingerprint [1, 2, 3]).downloads = 0 + 1 ∧
    taskCount (requestAll ⟨[], 0, 0⟩ exampleFingerprint [1, 2, 3]) exampleFingerprint = 1 ∧
    ∀ x ∈ [1, 2, 3], x ∈ waiters (requestAll ⟨[], 0, 0⟩ exampleFingerprint [1, 2, 3])
      exampleFingerprint :=
  claim_C4_fetch_dedup ⟨[], 0, 0⟩ exampleFingerprint 1 [2, 3] (by decide)

theorem downloadWithRetry_attempts_le (results : Nat → Bool) :
    ∀ (fuel start : Nat), (downloadWithRetry results start fuel).2 ≤ fuel := by
  intro fuel
  induction fuel with
  | zero =>
    intro start
    simp [downloadWithRetry]
  | succ n ih =>
    intro start
    by_cases hs : results start = true
    · simp [downloadWithRetry, hs]
    · simp only [downloadWithRetry, hs, Bool.false_eq_true, if_false]
      have := ih (start + 1)
      omega

theorem downloadWithRetry_all_fail (results : Nat → Bool) :
    ∀ (fuel start : Nat), (∀ i, start ≤ i → i < start + fuel → results i = false) →
      downloadWithRetry results start fuel = (false, fuel) := by
  intro fuel
  induction fuel with
  | zero =>
    intro start _
    rfl
  | succ n ih =>
    intro start hfail
    have h0 : results start = false := hfail start (Nat.le_refl start) (by omega)
    have hrest := ih (start + 1) (fun i h1 h2 => hfail i (by omega) (by omega))
    simp [downloadWithRetry, h0, hrest]

/-- Claim C5: download retries never exceed the configured bound (at most
`retryBound + 1` attempts in any run), and with a Downloader double that
fails on every allowed attempt — four failures against bound 3 — the
session deterministically reaches `Failed`, emits no `analyzing` events,
and ends with exactly one terminal `error` event after exactly four
download attempts. -/
theorem claim_C5_retry_bound (results : Nat → Bool) (out : List JSStr) :
    (downloadWithRetry results 0 (retryBound + 1)).2 ≤ retryBound + 1 ∧
    ((∀ i, i ≤ retryBound → results i = false) →
      (runSession false results out).2 = SessionState.Failed ∧
      (runSession false results out).1.countP isAnalyzing = 0 ∧
      (runSession false results out).1.countP isErrorEvent = 1 ∧
      (runSession false results out).1.getLast? = some (SpecEvent.error "下载失败".toList) ∧
      (downloadWithRetry results 0 (retryBound + 1)).2 = retryBound + 1) := by
  refine ⟨downloadWithRetry_attempts_le results (retryBound + 1) 0, ?_⟩
  intro hfail
  have hdl : downloadWithRetry results 0 (retryBound + 1) = (false, retryBound + 1) :=
    downloadWithRetry_all_fail results (retryBound + 1) 0
      (fun i h1 h2 => hfail i (by omega))
  have hrun : runSession false results out =
      ([SpecEvent.progress "query".toList "正在查询数据库...".toList,
        SpecEvent.error "下载失败".toList], SessionState.Failed) := by
    simp [runSession, hdl]
  rw [hrun, hdl]
  refine ⟨rfl, ?_, ?_, rfl, rfl⟩
  · decide
  · decide

/-- Claim C5 witness: the always-failing Downloader double, discharging the
all-attempts-fail hypothesis by evaluation. -/
theorem claim_C5_witness :
    (downloadWithRetry (fun _ => false) 0 (retryBound + 1)).2 ≤ retryBound + 1 ∧
    ((runSession false (fun _ => false) ["净利润分析".toList]).2 = SessionState.Failed ∧
      (runSession false (fun _ => false) ["净利润分析".toList]).1.countP isAnalyzing = 0 ∧
      (runSession false (fun _ => false) ["净利润分析".toList]).1.countP isErrorEvent = 1 ∧
      (runSession false (fun _ => false) ["净利润分析".toList]).1.getLast?
        = some (SpecEvent.error "下载失败".toList) ∧
      (downloadWithRetry (fun _ => false) 0 (retryBound + 1)).2 = retryBound + 1) :=
  ⟨(claim_C5_retry_bound (fun _ => false) ["净利润分析".toList]).1,
   (claim_C5_retry_bound (fun _ => false) ["净利润分析".toList]).2 (fun _ _ => rfl)⟩

theorem fileAt_findAndClean (p : List String) :
    ∀ items : List FSTree, (∀ c ∈ p.dropLast, c ∉ dirsToClean) →
      fileAt (findAndClean items) p = fileAt items p := by
  induction p with
  | nil =>
    intro items _
    rfl
  | cons n p' ih =>
    cases p' with
    | nil =>
      intro items _
      induction items with
      | nil =>
        simp [findAndClean]
      | cons t rest ihr =>
        cases t with
        | file m =>
          simp only [findAndClean, fileAt, List.any_cons] at ihr ⊢
          rw [ihr]
        | dir m cs =>
          cases hmc : dirsToClean.contains m with
          | true =>
            simp only [findAndClean, hmc, if_true, fileAt, List.any_cons] at ihr ⊢
            simp only [Bool.false_or]
            exact ihr
          | false =>
            cases hcd : canDescend m with
            | true =>
              simp only [findAndClean, hmc, hcd, Bool.false_eq_true, if_false, if_true,
                fileAt, List.any_cons] at ihr ⊢
              rw [ihr]
            | false =>
              simp only [findAndClean, hmc, hcd, Bool.false_eq_true, if_false,
                fileAt, List.any_cons] at ihr ⊢
              rw [ihr]
    | cons n2 p'' =>
      intro items hp
      have hn : n ∉ dirsToClean := hp n (by simp)
      have hp' : ∀ c ∈ (n2 :: p'').dropLast, c ∉ dirsToClean := by
        intro c hc
        refine hp c ?_
        rcases p'' with _ | ⟨x, xs⟩
        · simp at hc
        · simpa using Or.inr (by simpa using hc)
      induction items with
      | nil =>
        simp [findAndClean]
      | cons t rest ihr =>
        cases t with
        | file m =>
          simp only [findAndClean, fileAt, List.any_cons] at ihr ⊢
          rw [ihr]
        | dir m cs =>
          cases hmc : dirsToClean.contains m with
          | true =>
            have hmn : ¬(m = n) := by
              intro hEq
              exact hn (hEq ▸ List.elem_iff.mp hmc)
            simp only [findAndClean, hmc, if_true, fileAt, List.any_cons] at ihr ⊢
            simp only [hmn, decide_eq_false, Bool.false_and, Bool.false_or]
            exact ihr
          | false =>
            cases hcd : canDescend m with
            | true =>
              simp only [findAndClean, hmc, hcd, Bool.false_eq_true, if_false, if_true,
                fileAt, List.any_cons] at ihr ⊢
              rw [ih cs hp', ihr]
            | false =>
              simp only [findAndClean, hmc, hcd, Bool.false_eq_true, if_false,
                fileAt, List.any_cons] at ihr ⊢
              rw [ihr]

/-- Claim C10: the clean script is frame-preserving outside its targets —
for every path whose directory components are none of `__pycache__`,
`.pytest_cache`, `.mypy_cache`, a file exists at that path after cleaning
exactly as it did before (so only targeted directories and their contents
are ever deleted, and nothing is created), and the traversal never
descends into `node_modules`, `.venv` or dot-directories: such a
non-target directory is returned with its entire subtree untouched. -/
theorem claim_C10_clean_frame (items : List FSTree) :
    (∀ p : List String, (∀ c ∈ p.dropLast, c ∉ dirsToClean) →
      fileAt (findAndClean items) p = fileAt items p) ∧
    (∀ n cs rest, canDescend n = false → dirsToClean.contains n = false →
      findAndClean (FSTree.dir n cs :: rest) = FSTree.dir n cs :: findAndClean rest) := by
  constructor
  · intro p hp
    exact fileAt_findAndClean p items hp
  · intro n cs rest hcd hmem
    have hn : n ∉ dirsToClean := by simpa using hmem
    simp [findAndClean, hcd, hmem, hn]

/-- Claim C10 witness: a concrete tree containing a `__pycache__`
directory and a `node_modules` directory — the ordinary source file
survives cleaning, and the `node_modules` entry is returned untouched. -/
theorem claim_C10_witness :
    fileAt (findAndClean exampleTree) ["src", "a.py"] = fileAt exampleTree ["src", "a.py"] ∧
    findAndClean [FSTree.dir "node_modules" [FSTree.file "x.js"]]
      = [FSTree.dir "node_modules" [FSTree.file "x.js"]] :=
  ⟨(claim_C10_clean_frame exampleTree).1 ["src", "a.py"] (by decide),
   ((claim_C10_clean_frame []).2 "node_modules" [FSTree.file "x.js"] []
      (by simp [canDescend]) (by decide)).trans (by simp [findAndClean])⟩

theorem splitNN_sep (rest : List Char) :
    splitNN ('\n' :: '\n' :: rest) = ([] :: (splitNN rest).1, (splitNN rest).2) := rfl

theorem splitNN_cons (c : Char) (rest : List Char)
    (h : c ≠ '\n' ∨ rest.head? ≠ some '\n') :
    splitNN (c :: rest) =
      (match splitNN rest with
       | ([], l) => ([], c :: l)
       | (p :: ps, l) => ((c :: p) :: ps, l)) := by
  rw [splitNN.eq_def]
  split
  · simp_all
  · rename_i r heq
    injection heq with h1 h2
    subst h2
    rcases h with h | h
    · exact absurd h1 h
    · exact absurd rfl h
  · rename_i c2 rest2 hcond heq
    injection heq with h1 h2
    subst h1
    subst h2
    rfl

theorem splitNN_side (c : Char) (rest : List Char)
    (hcond : ∀ r1, c = '\n' → rest = '\n' :: r1 → False) :
    c ≠ '\n' ∨ rest.head? ≠ some '\n' := by
  by_cases hc : c = '\n'
  · right
    intro hh
    cases rest with
    | nil => simp at hh
    | cons a t =>
      simp only [List.head?_cons, Option.some.injEq] at hh
      exact hcond t hc (by rw [hh])
  · exact Or.inl hc

theorem splitNN_side_append (c : Char) (rest b : List Char) (hrest : rest ≠ [])
    (hcond : ∀ r1, c = '\n' → rest = '\n' :: r1 → False) :
    c ≠ '\n' ∨ (rest ++ b).head? ≠ some '\n' := by
  by_cases hc : c = '\n'
  · right
    cases rest with
    | nil => exact absurd rfl hrest
    | cons a t =>
      intro hh
      simp only [List.cons_append, List.head?_cons, Option.some.injEq] at hh
      exact hcond t hc (by rw [hh])
  · exact Or.inl hc

theorem splitNN_no_sep (x : List Char) (h : (splitNN x).1 = []) : (splitNN x).2 = x := by
  induction x using splitNN.induct with
  | case1 => rfl
  | case2 rest ih =>
    rw [splitNN_sep] at h
    simp at h
  | case3 c rest hcond l heq ih =>
    rw [splitNN_cons c rest (splitNN_side c rest hcond), heq]
    have hl : (splitNN rest).2 = rest := ih (by rw [heq])
    rw [heq] at hl
    simpa using hl
  | case4 c rest hcond p ps l heq ih =>
    rw [splitNN_cons c rest (splitNN_side c rest hcond), heq] at h
    simp at h

theorem splitNN_frag (x : List Char) : (splitNN ((splitNN x).2)).1 = [] := by
  induction x using splitNN.induct with
  | case1 => rfl
  | case2 rest ih =>
    rw [splitNN_sep]
    exact ih
  | case3 c rest hcond l heq ih =>
    have hl : (splitNN rest).2 = rest := splitNN_no_sep rest (by rw [heq])
    rw [heq] at hl
    subst hl
    rw [splitNN_cons c l (splitNN_side c l hcond), heq]
    rw [splitNN_cons c l (splitNN_side c l hcond), heq]
  | case4 c rest hcond p ps l heq ih =>
    rw [splitNN_cons c rest (splitNN_side c rest hcond), heq]
    rw [heq] at ih
    exact ih

theorem splitNN_append (a : List Char) : ∀ b : List Char,
    splitNN (a ++ b) = ((splitNN a).1 ++ (splitNN ((splitNN a).2 ++ b)).1,
      (splitNN ((splitNN a).2 ++ b)).2) := by
  induction a using splitNN.induct with
  | case1 =>
    intro b
    rfl
  | case2 rest ih =>
    intro b
    rw [List.cons_append, List.cons_append, splitNN_sep, splitNN_sep, ih b]
    simp
  | case3 c rest hcond l heq ih =>
    intro b
    have hl : (splitNN rest).2 = rest := splitNN_no_sep rest (by rw [heq])
    rw [heq] at hl
    subst hl
    rw [splitNN_cons c l (splitNN_side c l hcond), heq]
    simp
  | case4 c rest hcond p ps l heq ih =>
    intro b
    have hrest : rest ≠ [] := by
      intro hnil
      subst hnil
      simp [splitNN] at heq
    rw [List.cons_append,
      splitNN_cons c (rest ++ b) (splitNN_side_append c rest b hrest hcond),
      ih b, heq,
      splitNN_cons c rest (splitNN_side c rest hcond), heq]
    simp

theorem runChunks_flatten (chunks : List (List Char)) :
    ∀ buffer : List Char, (splitNN buffer).1 = [] →
      runChunks buffer chunks
        = ((splitNN (buffer ++ chunks.flatten)).1).filterMap processMsg := by
  induction chunks with
  | nil =>
    intro buffer h
    simp only [List.flatten_nil, List.append_nil, h, List.filterMap_nil]
    rfl
  | cons c cs ih =>
    intro buffer h
    have hstep : runChunks buffer (c :: cs)
        = ((splitNN (buffer ++ c)).1).filterMap processMsg
          ++ runChunks ((splitNN (buffer ++ c)).2) cs := rfl
    rw [hstep, ih ((splitNN (buffer ++ c)).2) (splitNN_frag (buffer ++ c))]
    have hassoc : buffer ++ (c :: cs).flatten = (buffer ++ c) ++ cs.flatten := by
      rw [List.flatten_cons, List.append_assoc]
    rw [hassoc, splitNN_append (buffer ++ c) cs.flatten, List.filterMap_append]

theorem splitNN_encode_frame (x : List Char) (r : List Char) (hx : '\n' ∉ x) :
    splitNN (x ++ '\n' :: '\n' :: r) = (x :: (splitNN r).1, (splitNN r).2) := by
  induction x with
  | nil => exact splitNN_sep r
  | cons c t ih =>
    have hc : c ≠ '\n' := fun hEq => hx (hEq ▸ List.mem_cons_self c t)
    rw [List.cons_append,
      splitNN_cons c (t ++ '\n' :: '\n' :: r) (Or.inl hc),
      ih (fun hm => hx (List.mem_cons_of_mem c hm))]

theorem splitNN_encodeStream (js : List (List Char))
    (h : ∀ j ∈ js, goodFrameJson j = true) :
    splitNN (encodeStream js) = (js.map (fun j => dataPrefix ++ j), []) := by
  induction js with
  | nil => rfl
  | cons j rest ih =>
    have hj := h j (List.mem_cons_self j rest)
    have hnl : '\n' ∉ dataPrefix ++ j := by
      intro hmem
      rcases List.mem_append.mp hmem with hm | hm
      · simp [dataPrefix] at hm
      · have hj2 : '\n' ∉ j := by
          unfold goodFrameJson at hj
          simpa using ((Bool.and_eq_true _ _).mp hj).1
        exact hj2 hm
    have hstream : encodeStream (j :: rest)
        = (dataPrefix ++ j) ++ '\n' :: '\n' :: encodeStream rest := by
      simp [encodeStream, encodeFrame, List.flatten_cons, List.append_assoc]
    rw [hstream, splitNN_encode_frame (dataPrefix ++ j) (encodeStream rest) hnl,
      ih (fun x hx => h x (List.mem_cons_of_mem j hx))]
    rfl

theorem jsTrim_data_frame (j : List Char) (hj : goodFrameJson j = true) :
    jsTrim (dataPrefix ++ j) = dataPrefix ++ j := by
  obtain ⟨c, t, hrev, hc⟩ : ∃ c t, j.reverse = c :: t ∧ jsWhitespace c = false := by
    unfold goodFrameJson at hj
    cases hr : j.reverse with
    | nil =>
      rw [hr] at hj
      simp at hj
    | cons c t =>
      rw [hr] at hj
      refine ⟨c, t, rfl, ?_⟩
      have := (Bool.and_eq_true _ _).mp hj
      simpa using this.2
  unfold jsTrim
  have hfront : (dataPrefix ++ j).dropWhile jsWhitespace = dataPrefix ++ j := by
    show List.dropWhile jsWhitespace ('d' :: (['a', 't', 'a', ':', ' '] ++ j)) = dataPrefix ++ j
    rw [List.dropWhile_cons, if_neg (by decide)]
    rfl
  rw [hfront, List.reverse_append, hrev, List.cons_append, List.dropWhile_cons]
  simp only [hc, Bool.false_eq_true, if_false]
  rw [← List.cons_append, ← hrev, ← List.reverse_append, List.reverse_reverse]

theorem processMsg_encode (j : List Char) (hj : goodFrameJson j = true) :
    processMsg (dataPrefix ++ j) = some j := by
  unfold processMsg
  rw [jsTrim_data_frame j hj]
  rw [if_pos (by simp [dataPrefix, List.isPrefixOf])]
  rw [show (6 : Nat) = dataPrefix.length from rfl, List.drop_left]

theorem filterMap_processMsg_encode (js : List (List Char))
    (h : ∀ j ∈ js, goodFrameJson j = true) :
    (js.map (fun j => dataPrefix ++ j)).filterMap processMsg = js := by
  induction js with
  | nil => rfl
  | cons j rest ih =>
    rw [List.map_cons, List.filterMap_cons,
      processMsg_encode j (h j (List.mem_cons_self j rest)),
      ih (fun x hx => h x (List.mem_cons_of_mem j hx))]

/-- Claim C1: for every frame list (single-line JSON payloads) encoded as
`data: `-prefixed frames separated by blank lines, and for every way the
resulting byte stream — possibly followed by a trailing separator-free
fragment — is torn into network chunks, the `handleSubmit` parse loop
recovers exactly the frames' JSON texts, once each and in stream order;
the trailing incomplete fragment stays buffered and is never parsed. -/
theorem claim_C1_chunked_stream_parsing (js chunks : List (List Char)) (frag : List Char)
    (hgood : ∀ j ∈ js, goodFrameJson j = true)
    (hfrag : (splitNN frag).1 = [])
    (hchunks : chunks.flatten = encodeStream js ++ frag) :
    runChunks [] chunks = js := by
  rw [runChunks_flatten chunks [] rfl, List.nil_append, hchunks,
    splitNN_append (encodeStream js) frag, splitNN_encodeStream js hgood]
  simp only [List.nil_append, hfrag, List.append_nil]
  exact filterMap_processMsg_encode js hgood

/-- Claim C1 witness: two frames torn across three chunks at awkward
boundaries — mid-prefix and mid-separator — plus an incomplete trailing
frame that stays buffered; the parse loop recovers exactly the two
payloads in order. -/
theorem claim_C1_witness :
    runChunks [] ["da".toList, "ta: alpha\n".toList, "\ndata: beta\n\ndata: ga".toList]
      = ["alpha".toList, "beta".toList] :=
  claim_C1_chunked_stream_parsing ["alpha".toList, "beta".toList]
    ["da".toList, "ta: alpha\n".toList, "\ndata: beta\n\ndata: ga".toList]
    "data: ga".toList (by decide) (by decide) (by decide)

end AiEra
